import Mathlib

/-
Verification of the hint-collection subsystem of V8's serializer for
background compilation (src/compiler/serializer-hints.h).

The core object is the template class FunctionalSet<T, EqualTo, Hasher>:
a structurally shared set over a persistent list (FunctionalList<T>) with
an incrementally XOR-maintained running hash.  We embed it shallowly:

  * the backing FunctionalList<T> becomes a Lean List T (most recently
    pushed element first, matching PushFront and forward iteration);
  * the caller-supplied EqualTo and Hasher function objects become
    explicit parameters eq : T -> T -> Bool and hasher : T -> Nat
    (size_t hashes are Nats; XOR on size_t never overflows, so Nat XOR
    is exact);
  * FunctionalList::TriviallyEquals, an externally supplied primitive
    (functional-list.h is not part of this tree), is modelled from the
    spec as the structural identity of the two backing sequences.

The Hints aggregate is declared in the header but its method bodies live
elsewhere; the pieces a claim needs (AddConstant's soft cap) are modelled
from the spec and documented as such.  VirtualContext is fully in the
header and embedded directly, with Handle<Context> reference equality
modelled as identity of an abstract handle id.
-/

set_option autoImplicit false
set_option maxRecDepth 10000

namespace SerializerHints

variable {T : Type}

/-- FunctionalSet<T, EqualTo, Hasher>: the two data members of the C++
class, `data_` (the backing FunctionalList, most recent element first)
and `hash_` (the running XOR hash, a size_t initialised to 0). -/
structure FunctionalSet (T : Type) where
  data_ : List T
  hash_ : Nat
  deriving DecidableEq

/-- A default-constructed FunctionalSet: empty backing list, hash 0. -/
def FunctionalSet.empty : FunctionalSet T := ⟨[], 0⟩

/-- FunctionalSet::Add: linear scan with the supplied equality; if an
equal element is found, return (no-op); otherwise PushFront the element
and XOR its hash into the running hash. -/
def FunctionalSet.Add (eq : T → T → Bool) (hasher : T → Nat)
    (s : FunctionalSet T) (elem : T) : FunctionalSet T :=
  if s.data_.any (fun l => eq l elem) then s
  else ⟨elem :: s.data_, s.hash_ ^^^ hasher elem⟩

/-- FunctionalSet::Union: the argument is taken by value.  If the two
backing lists are trivially (structurally) equal, return at once.
Otherwise, when the receiver's list is the smaller, std::swap exchanges
the two `data_` lists — note that the two `hash_` members are NOT
swapped — and then every element of (the possibly swapped) `other.data_`
is Added individually.  The swap is inlined into the two branches below:
in the first (receiver smaller) the loop runs over the receiver's
original list with accumulator ⟨other's list, receiver's hash⟩, in the
second the loop runs over the argument's list with the receiver as
accumulator. -/
def FunctionalSet.Union [DecidableEq T] (eq : T → T → Bool) (hasher : T → Nat)
    (s : FunctionalSet T) (other : FunctionalSet T) : FunctionalSet T :=
  if s.data_ = other.data_ then s
  else if s.data_.length < other.data_.length
  then s.data_.foldl (fun acc e => FunctionalSet.Add eq hasher acc e)
        ⟨other.data_, s.hash_⟩
  else other.data_.foldl (fun acc e => FunctionalSet.Add eq hasher acc e) s

/-- FunctionalSet::IsEmpty: begin() == end(), i.e. the backing list has
no elements. -/
def FunctionalSet.IsEmpty (s : FunctionalSet T) : Bool := s.data_.isEmpty

/-- FunctionalSet::Includes: every element of `other` is matched (by the
supplied equality, receiver's element as first argument) by some element
of the receiver. -/
def FunctionalSet.Includes (eq : T → T → Bool)
    (s other : FunctionalSet T) : Bool :=
  other.data_.all (fun o => s.data_.any (fun t => eq t o))

/-- FunctionalSet::Size: the number of elements of the backing list. -/
def FunctionalSet.Size (s : FunctionalSet T) : Nat := s.data_.length

/-- FunctionalSet::Hash: the running hash member. -/
def FunctionalSet.Hash (s : FunctionalSet T) : Nat := s.hash_

/-- FunctionalSet::operator==: trivial (structural) equality of the
backing lists, or else equal sizes, equal running hashes and mutual
inclusion. -/
def FunctionalSet.seteq [DecidableEq T] (eq : T → T → Bool)
    (s other : FunctionalSet T) : Bool :=
  decide (s.data_ = other.data_) ||
    (s.Size == other.Size && s.Hash == other.Hash &&
     FunctionalSet.Includes eq s other && FunctionalSet.Includes eq other s)

/-- FunctionalSet::operator!=: negation of operator==. -/
def FunctionalSet.setneq [DecidableEq T] (eq : T → T → Bool)
    (s other : FunctionalSet T) : Bool :=
  !(FunctionalSet.seteq eq s other)

/-- Membership in a FunctionalSet under the supplied equality: some
element of the backing list matches (list element as first argument of
the equality, exactly as in Add's scan). -/
def FunctionalSet.mem (eq : T → T → Bool) (s : FunctionalSet T) (elem : T) : Bool :=
  s.data_.any (fun l => eq l elem)

/-- The XOR of the supplied hash over all elements of the backing list:
the value `hash_` is intended to track. -/
def FunctionalSet.xorHash (hasher : T → Nat) (s : FunctionalSet T) : Nat :=
  s.data_.foldl (fun a e => a ^^^ hasher e) 0

/-- The supplied equality is symmetric. -/
@[reducible] def EqSymm (eq : T → T → Bool) : Prop :=
  ∀ a b, eq a b = true → eq b a = true

/-- The supplied equality is transitive. -/
@[reducible] def EqTrans (eq : T → T → Bool) : Prop :=
  ∀ a b c, eq a b = true → eq b c = true → eq a c = true

/-- No two elements of the backing list are equal under the supplied
equality. -/
@[reducible] def NoDupEq (eq : T → T → Bool) (s : FunctionalSet T) : Prop :=
  s.data_.Pairwise (fun a b => eq a b = false)

/-- The FunctionalSets reachable from the default-constructed (empty)
set by any sequence of Add and Union operations. -/
inductive Reachable [DecidableEq T] (eq : T → T → Bool) (hasher : T → Nat) :
    FunctionalSet T → Prop where
  | empty : Reachable eq hasher FunctionalSet.empty
  | add (s : FunctionalSet T) (e : T) :
      Reachable eq hasher s → Reachable eq hasher (FunctionalSet.Add eq hasher s e)
  | union (s t : FunctionalSet T) :
      Reachable eq hasher s → Reachable eq hasher t →
      Reachable eq hasher (FunctionalSet.Union eq hasher s t)

/-- Reference equality on Nat-numbered handles, the concrete equality
used by the witnesses. -/
def natEq (a b : Nat) : Bool := a == b

/-- A concrete hasher for Nat-numbered handles. -/
def natHash (a : Nat) : Nat := a

theorem Add_eq_ite (eq : T → T → Bool) (hasher : T → Nat)
    (s : FunctionalSet T) (e : T) :
    FunctionalSet.Add eq hasher s e =
      if FunctionalSet.mem eq s e then s
      else ⟨e :: s.data_, s.hash_ ^^^ hasher e⟩ := rfl

theorem mem_Add {eq : T → T → Bool} (hasher : T → Nat) (ht : EqTrans eq)
    (s : FunctionalSet T) (e x : T) :
    FunctionalSet.mem eq (FunctionalSet.Add eq hasher s e) x = true ↔
      (FunctionalSet.mem eq s x = true ∨ eq e x = true) := by
  rw [Add_eq_ite]
  cases h : FunctionalSet.mem eq s e with
  | true =>
    simp only [if_true]
    constructor
    · exact fun hm => Or.inl hm
    · rintro (hm | hex)
      · exact hm
      · obtain ⟨l, hl, hle⟩ := List.any_eq_true.mp h
        exact List.any_eq_true.mpr ⟨l, hl, ht l e x hle hex⟩
  | false =>
    simp only [Bool.false_eq_true, if_false]
    unfold FunctionalSet.mem
    simp only [List.any_cons]
    constructor
    · intro hx
      rcases Bool.or_eq_true_iff.mp hx with hex | hm
      · exact Or.inr hex
      · exact Or.inl hm
    · rintro (hm | hex)
      · exact Bool.or_eq_true_iff.mpr (Or.inr hm)
      · exact Bool.or_eq_true_iff.mpr (Or.inl hex)

theorem mem_foldl_Add {eq : T → T → Bool} (hasher : T → Nat) (ht : EqTrans eq)
    (lst : List T) (acc : FunctionalSet T) (x : T) :
    FunctionalSet.mem eq
        (lst.foldl (fun a e => FunctionalSet.Add eq hasher a e) acc) x = true ↔
      (FunctionalSet.mem eq acc x = true ∨ ∃ e ∈ lst, eq e x = true) := by
  induction lst generalizing acc with
  | nil => simp
  | cons e l ih =>
    simp only [List.foldl_cons]
    rw [ih]
    rw [mem_Add hasher ht]
    constructor
    · rintro ((hm | hex) | ⟨f, hf, hfx⟩)
      · exact Or.inl hm
      · exact Or.inr ⟨e, List.mem_cons_self e l, hex⟩
      · exact Or.inr ⟨f, List.mem_cons_of_mem e hf, hfx⟩
    · rintro (hm | ⟨f, hf, hfx⟩)
      · exact Or.inl (Or.inl hm)
      · rcases List.mem_cons.mp hf with rfl | hfl
        · exact Or.inl (Or.inr hfx)
        · exact Or.inr ⟨f, hfl, hfx⟩

theorem nodup_Add {eq : T → T → Bool} (hasher : T → Nat) (hs : EqSymm eq)
    (s : FunctionalSet T) (e : T) (hnd : NoDupEq eq s) :
    NoDupEq eq (FunctionalSet.Add eq hasher s e) := by
  rw [Add_eq_ite]
  cases h : FunctionalSet.mem eq s e with
  | true => simpa using hnd
  | false =>
    simp only [Bool.false_eq_true, if_false]
    unfold NoDupEq at hnd ⊢
    refine List.Pairwise.cons ?_ hnd
    intro b hb
    cases hcase : eq e b with
    | false => rfl
    | true =>
      exfalso
      have hb' : eq b e = true := hs e b hcase
      have hmem : FunctionalSet.mem eq s e = true :=
        List.any_eq_true.mpr ⟨b, hb, hb'⟩
      rw [h] at hmem
      exact Bool.false_ne_true hmem

theorem nodup_foldl_Add {eq : T → T → Bool} (hasher : T → Nat) (hs : EqSymm eq)
    (lst : List T) (acc : FunctionalSet T) (hnd : NoDupEq eq acc) :
    NoDupEq eq (lst.foldl (fun a e => FunctionalSet.Add eq hasher a e) acc) := by
  induction lst generalizing acc with
  | nil => exact hnd
  | cons e l ih => exact ih _ (nodup_Add hasher hs acc e hnd)

/-- C1: FunctionalSet::operator== returns true exactly when the backing
lists are structurally identical, or else the sizes agree, the running
hashes agree, and each set Includes the other. -/
theorem seteq_iff [DecidableEq T] (eq : T → T → Bool) (A B : FunctionalSet T) :
    FunctionalSet.seteq eq A B = true ↔
      (A.data_ = B.data_ ∨
        (A.Size = B.Size ∧ A.Hash = B.Hash ∧
         FunctionalSet.Includes eq A B = true ∧
         FunctionalSet.Includes eq B A = true)) := by
  unfold FunctionalSet.seteq
  simp [Bool.or_eq_true_iff, Bool.and_eq_true, and_assoc]

/-- C2: FunctionalSet::Add is a no-op (the whole state, hence size,
membership and hash, is unchanged) when an equal element is present;
otherwise it prepends the element to the backing list and XORs its hash
into the running hash; and when the supplied equality holds reflexively
at the element, adding twice equals adding once. -/
theorem Add_spec (eq : T → T → Bool) (hasher : T → Nat)
    (s : FunctionalSet T) (e : T) (hrefl : eq e e = true) :
    (FunctionalSet.mem eq s e = true → FunctionalSet.Add eq hasher s e = s) ∧
    (FunctionalSet.mem eq s e = false →
      FunctionalSet.Add eq hasher s e = ⟨e :: s.data_, s.hash_ ^^^ hasher e⟩) ∧
    FunctionalSet.Add eq hasher (FunctionalSet.Add eq hasher s e) e =
      FunctionalSet.Add eq hasher s e := by
  refine ⟨?_, ?_, ?_⟩
  · intro hm
    rw [Add_eq_ite, hm]
    simp
  · intro hm
    rw [Add_eq_ite, hm]
    simp
  · cases h : FunctionalSet.mem eq s e with
    | true =>
      have hA : FunctionalSet.Add eq hasher s e = s := by
        rw [Add_eq_ite, h]
        simp
      rw [hA]
      exact hA
    | false =>
      have h1 : FunctionalSet.Add eq hasher s e =
          ⟨e :: s.data_, s.hash_ ^^^ hasher e⟩ := by
        rw [Add_eq_ite, h]
        simp
      rw [h1, Add_eq_ite]
      have hm2 : FunctionalSet.mem eq
          (⟨e :: s.data_, s.hash_ ^^^ hasher e⟩ : FunctionalSet T) e = true := by
        unfold FunctionalSet.mem
        simp [hrefl]
      rw [hm2]
      simp

/-- Witness for C2 at a concrete input. -/
theorem Add_spec_witness :
    natEq 3 3 = true ∧
    (FunctionalSet.Add natEq natHash
        (FunctionalSet.Add natEq natHash FunctionalSet.empty 3) 3 =
      FunctionalSet.Add natEq natHash FunctionalSet.empty 3) :=
  ⟨by decide, (Add_spec natEq natHash FunctionalSet.empty 3 (by decide)).2.2⟩

theorem Union_triv [DecidableEq T] (eq : T → T → Bool) (hasher : T → Nat)
    (A B : FunctionalSet T) (hd : A.data_ = B.data_) :
    FunctionalSet.Union eq hasher A B = A := by
  unfold FunctionalSet.Union
  rw [if_pos hd]

theorem Union_swap [DecidableEq T] (eq : T → T → Bool) (hasher : T → Nat)
    (A B : FunctionalSet T) (hd : A.data_ ≠ B.data_)
    (hlen : A.data_.length < B.data_.length) :
    FunctionalSet.Union eq hasher A B =
      A.data_.foldl (fun acc e => FunctionalSet.Add eq hasher acc e)
        ⟨B.data_, A.hash_⟩ := by
  unfold FunctionalSet.Union
  rw [if_neg hd, if_pos hlen]

theorem Union_noswap [DecidableEq T] (eq : T → T → Bool) (hasher : T → Nat)
    (A B : FunctionalSet T) (hd : A.data_ ≠ B.data_)
    (hlen : ¬ A.data_.length < B.data_.length) :
    FunctionalSet.Union eq hasher A B =
      B.data_.foldl (fun acc e => FunctionalSet.Add eq hasher acc e) A := by
  unfold FunctionalSet.Union
  rw [if_neg hd, if_neg hlen]

theorem mem_data_only (eq : T → T → Bool) (s t : FunctionalSet T)
    (hd : s.data_ = t.data_) (x : T) :
    FunctionalSet.mem eq s x = FunctionalSet.mem eq t x := by
  unfold FunctionalSet.mem
  rw [hd]

theorem mem_Union {eq : T → T → Bool} [DecidableEq T] (hasher : T → Nat)
    (ht : EqTrans eq) (A B : FunctionalSet T) (x : T) :
    FunctionalSet.mem eq (FunctionalSet.Union eq hasher A B) x = true ↔
      (FunctionalSet.mem eq A x = true ∨ FunctionalSet.mem eq B x = true) := by
  by_cases hd : A.data_ = B.data_
  · rw [Union_triv eq hasher A B hd]
    rw [mem_data_only eq A B hd]
    tauto
  · by_cases hlen : A.data_.length < B.data_.length
    · rw [Union_swap eq hasher A B hd hlen]
      rw [mem_foldl_Add hasher ht]
      have hBm : FunctionalSet.mem eq (⟨B.data_, A.hash_⟩ : FunctionalSet T) x =
          FunctionalSet.mem eq B x := mem_data_only eq _ B rfl x
      rw [hBm]
      simp only [FunctionalSet.mem, List.any_eq_true]
      exact or_comm
    · rw [Union_noswap eq hasher A B hd hlen]
      rw [mem_foldl_Add hasher ht]
      simp only [FunctionalSet.mem, List.any_eq_true]

theorem nodup_data_only (eq : T → T → Bool) (s t : FunctionalSet T)
    (hd : s.data_ = t.data_) (h : NoDupEq eq t) : NoDupEq eq s := by
  unfold NoDupEq at h ⊢
  rw [hd]
  exact h

theorem nodup_Union {eq : T → T → Bool} [DecidableEq T] (hasher : T → Nat)
    (hs : EqSymm eq) (A B : FunctionalSet T)
    (hA : NoDupEq eq A) (hB : NoDupEq eq B) :
    NoDupEq eq (FunctionalSet.Union eq hasher A B) := by
  by_cases hd : A.data_ = B.data_
  · rw [Union_triv eq hasher A B hd]
    exact hA
  · by_cases hlen : A.data_.length < B.data_.length
    · rw [Union_swap eq hasher A B hd hlen]
      exact nodup_foldl_Add hasher hs _ _ (nodup_data_only eq _ B rfl hB)
    · rw [Union_noswap eq hasher A B hd hlen]
      exact nodup_foldl_Add hasher hs _ _ hA

/-- C3: FunctionalSet::Union returns the receiver untouched when the
backing lists are structurally identical; otherwise the larger list
becomes the new tail (the fold's starting accumulator) and every element
of the smaller list is individually Added onto it; the resulting set
contains exactly the elements that were members of the receiver or of
the argument, with no duplicates, provided the supplied equality is
symmetric and transitive and both inputs are duplicate-free. -/
theorem Union_spec [DecidableEq T] (eq : T → T → Bool) (hasher : T → Nat)
    (A B : FunctionalSet T) (hs : EqSymm eq) (ht : EqTrans eq)
    (hA : NoDupEq eq A) (hB : NoDupEq eq B) :
    (A.data_ = B.data_ → FunctionalSet.Union eq hasher A B = A) ∧
    (A.data_ ≠ B.data_ → A.data_.length < B.data_.length →
      FunctionalSet.Union eq hasher A B =
        A.data_.foldl (fun acc e => FunctionalSet.Add eq hasher acc e)
          ⟨B.data_, A.hash_⟩) ∧
    (A.data_ ≠ B.data_ → ¬ A.data_.length < B.data_.length →
      FunctionalSet.Union eq hasher A B =
        B.data_.foldl (fun acc e => FunctionalSet.Add eq hasher acc e) A) ∧
    (∀ x, FunctionalSet.mem eq (FunctionalSet.Union eq hasher A B) x = true ↔
      (FunctionalSet.mem eq A x = true ∨ FunctionalSet.mem eq B x = true)) ∧
    NoDupEq eq (FunctionalSet.Union eq hasher A B) :=
  ⟨Union_triv eq hasher A B, Union_swap eq hasher A B, Union_noswap eq hasher A B,
   mem_Union hasher ht A B, nodup_Union hasher hs A B hA hB⟩

/-- Reference equality on Fin 3, used by witnesses that must decide
properties quantified over the whole element type. -/
def finEq (a b : Fin 3) : Bool := a == b

/-- A concrete hasher on Fin 3. -/
def finHash (a : Fin 3) : Nat := a.val

/-- Witness for C3 at a concrete input. -/
theorem Union_spec_witness :
    EqSymm finEq ∧ EqTrans finEq ∧
    NoDupEq finEq (FunctionalSet.Add finEq finHash FunctionalSet.empty 0) ∧
    NoDupEq finEq (FunctionalSet.Add finEq finHash FunctionalSet.empty 1) ∧
    NoDupEq finEq
      (FunctionalSet.Union finEq finHash
        (FunctionalSet.Add finEq finHash FunctionalSet.empty 0)
        (FunctionalSet.Add finEq finHash FunctionalSet.empty 1)) :=
  ⟨by decide, by decide, by decide, by decide,
   (Union_spec finEq finHash
     (FunctionalSet.Add finEq finHash FunctionalSet.empty 0)
     (FunctionalSet.Add finEq finHash FunctionalSet.empty 1)
     (by decide) (by decide) (by decide) (by decide)).2.2.2.2⟩

/-- C6: every FunctionalSet reachable from the empty set by Add and
Union operations has no two elements equal under the supplied (symmetric)
equality, and Size() is the number of elements of the backing list. -/
theorem reachable_invariant [DecidableEq T] (eq : T → T → Bool)
    (hasher : T → Nat) (S : FunctionalSet T) (hs : EqSymm eq)
    (h : Reachable eq hasher S) :
    NoDupEq eq S ∧ S.Size = S.data_.length := by
  refine ⟨?_, rfl⟩
  induction h with
  | empty => exact List.Pairwise.nil
  | add s e _ ih => exact nodup_Add hasher hs s e ih
  | union s t _ _ ih1 ih2 => exact nodup_Union hasher hs s t ih1 ih2

/-- Witness for C6 at a concrete input. -/
theorem reachable_invariant_witness :
    EqSymm finEq ∧
    NoDupEq finEq
      (FunctionalSet.Union finEq finHash
        (FunctionalSet.Add finEq finHash FunctionalSet.empty 2)
        (FunctionalSet.Add finEq finHash FunctionalSet.empty 1)) :=
  ⟨by decide,
   (reachable_invariant finEq finHash _ (by decide)
     (Reachable.union _ _
       (Reachable.add _ 2 Reachable.empty)
       (Reachable.add _ 1 Reachable.empty))).1⟩

/-- C4: evaluated counterexample — Union is NOT commutative under
operator== on sets reachable by Add/Union from empty.  With reference
equality and the identity hasher on Nat handles, take
A = empty.Union({1}) (the Union swap installs the list [1] without
updating the hash, leaving hash 0) and B = {2}.  Then A.Union(B) and
B.Union(A) have the same two-element membership (mutual Includes holds
and the sizes agree) yet operator== rejects them, because their running
hashes differ (2 versus 3). -/
theorem Union_comm_counterexample :
    FunctionalSet.Includes natEq
        (FunctionalSet.Union natEq natHash
          (FunctionalSet.Union natEq natHash FunctionalSet.empty
            (FunctionalSet.Add natEq natHash FunctionalSet.empty 1))
          (FunctionalSet.Add natEq natHash FunctionalSet.empty 2))
        (FunctionalSet.Union natEq natHash
          (FunctionalSet.Add natEq natHash FunctionalSet.empty 2)
          (FunctionalSet.Union natEq natHash FunctionalSet.empty
            (FunctionalSet.Add natEq natHash FunctionalSet.empty 1))) = true ∧
    FunctionalSet.Includes natEq
        (FunctionalSet.Union natEq natHash
          (FunctionalSet.Add natEq natHash FunctionalSet.empty 2)
          (FunctionalSet.Union natEq natHash FunctionalSet.empty
            (FunctionalSet.Add natEq natHash FunctionalSet.empty 1)))
        (FunctionalSet.Union natEq natHash
          (FunctionalSet.Union natEq natHash FunctionalSet.empty
            (FunctionalSet.Add natEq natHash FunctionalSet.empty 1))
          (FunctionalSet.Add natEq natHash FunctionalSet.empty 2)) = true ∧
    FunctionalSet.seteq natEq
        (FunctionalSet.Union natEq natHash
          (FunctionalSet.Union natEq natHash FunctionalSet.empty
            (FunctionalSet.Add natEq natHash FunctionalSet.empty 1))
          (FunctionalSet.Add natEq natHash FunctionalSet.empty 2))
        (FunctionalSet.Union natEq natHash
          (FunctionalSet.Add natEq natHash FunctionalSet.empty 2)
          (FunctionalSet.Union natEq natHash FunctionalSet.empty
            (FunctionalSet.Add natEq natHash FunctionalSet.empty 1))) = false := by
  decide

/-- C5: evaluated counterexample — operator== does not imply equal
running hashes, and sets of equal membership can carry different running
hashes (so the size/hash pre-check CAN falsely reject).  Take
A = empty.Union({1}), whose membership is {1} but whose hash is 0
because Union swaps the backing lists without swapping the hashes, and
C = Add(empty, 1), whose hash is 1.  The backing lists are identical, so
operator== answers true through the fast path, yet Hash() differs. -/
theorem seteq_hash_counterexample :
    FunctionalSet.seteq natEq
        (FunctionalSet.Union natEq natHash FunctionalSet.empty
          (FunctionalSet.Add natEq natHash FunctionalSet.empty 1))
        (FunctionalSet.Add natEq natHash FunctionalSet.empty 1) = true ∧
    FunctionalSet.Hash
        (FunctionalSet.Union natEq natHash FunctionalSet.empty
          (FunctionalSet.Add natEq natHash FunctionalSet.empty 1)) = 0 ∧
    FunctionalSet.Hash
        (FunctionalSet.Add natEq natHash FunctionalSet.empty 1) = 1 := by
  decide

/-- C9: evaluated counterexample — the running hash of a reachable
FunctionalSet need not equal the XOR of the element hashes.  After
empty.Union({1}) the backing list is [1] (the std::swap hands the
argument's list to the receiver) but the hash stays the receiver's
original 0, while the XOR over the elements is 1. -/
theorem running_hash_counterexample :
    (FunctionalSet.Union natEq natHash FunctionalSet.empty
        (FunctionalSet.Add natEq natHash FunctionalSet.empty 1)).data_ = [1] ∧
    FunctionalSet.Hash
        (FunctionalSet.Union natEq natHash FunctionalSet.empty
          (FunctionalSet.Add natEq natHash FunctionalSet.empty 1)) = 0 ∧
    FunctionalSet.xorHash natHash
        (FunctionalSet.Union natEq natHash FunctionalSet.empty
          (FunctionalSet.Add natEq natHash FunctionalSet.empty 1)) = 1 := by
  decide

/-- Hints::kMaxHintsSize, the soft per-category size cap. -/
def kMaxHintsSize : Nat := 50

/-- Modelled from the spec: the body of Hints::AddConstant is only
declared in this header (it lives with the serializer implementation).
Per the spec it ensures allocation and then delegates to the constants
category's Add, subject to the soft size cap: once the category has
reached kMaxHintsSize elements, further additions are dropped rather
than growing it.  Constant handles are modelled as Nat ids compared by
reference equality. -/
def Hints.AddConstant (constants : FunctionalSet Nat) (c : Nat) :
    FunctionalSet Nat :=
  if constants.Size < kMaxHintsSize
  then FunctionalSet.Add natEq natHash constants c
  else constants

/-- C7: once the constants category holds kMaxHintsSize elements a
further AddConstant is dropped (the category is returned unchanged), and
adding the 60 distinct constants 0..59 to an empty category retains
exactly 50 elements, namely the first 50 encountered (0..49, most recent
first). -/
theorem addConstant_cap :
    (∀ (s : FunctionalSet Nat) (c : Nat),
      kMaxHintsSize ≤ s.Size → Hints.AddConstant s c = s) ∧
    FunctionalSet.Size
      ((List.range 60).foldl Hints.AddConstant FunctionalSet.empty) = 50 ∧
    ((List.range 60).foldl Hints.AddConstant FunctionalSet.empty).data_ =
      (List.range 50).reverse := by
  refine ⟨?_, by decide, by decide⟩
  intro s c h
  unfold Hints.AddConstant
  rw [if_neg (by omega)]

/-- Witness for C7's cap clause at a concrete input: the set holding
0..49 is full, so adding 99 is dropped. -/
theorem addConstant_cap_witness :
    kMaxHintsSize ≤
      FunctionalSet.Size
        ((List.range 60).foldl Hints.AddConstant FunctionalSet.empty) ∧
    Hints.AddConstant
        ((List.range 60).foldl Hints.AddConstant FunctionalSet.empty) 99 =
      (List.range 60).foldl Hints.AddConstant FunctionalSet.empty :=
  ⟨by decide, addConstant_cap.1 _ 99 (by decide)⟩

/-- VirtualContext: a distance (unsigned int, so a Nat) and a
Handle<Context>.  Handle is supplied by handles.h (not part of this
tree); per the spec a context record compares by reference equality of
the context, so the handle is modelled as an abstract id whose identity
is reference equality. -/
structure VirtualContext where
  distance : Nat
  context : Nat
  deriving DecidableEq

/-- The VirtualContext constructor: CHECK_GT(distance, 0) is a fatal
precondition check; the fallible construction yields none exactly when
the check would fire (distance is unsigned, so non-positive means 0). -/
def VirtualContext.make (distance_in : Nat) (context_in : Nat) :
    Option VirtualContext :=
  if 0 < distance_in then some ⟨distance_in, context_in⟩ else none

/-- VirtualContext::operator==: reference equality of the context handle
and exact distance match. -/
def VirtualContext.veq (a b : VirtualContext) : Bool :=
  a.context == b.context && a.distance == b.distance

/-- C8: construction with distance 0 is the fatal precondition failure;
every successfully constructed VirtualContext has strictly positive
distance; and VirtualContext equality holds exactly when the context
handles are reference-equal and the distances match exactly. -/
theorem virtualContext_spec (d c : Nat) (a b : VirtualContext) :
    (∀ v, VirtualContext.make d c = some v → 0 < v.distance) ∧
    VirtualContext.make 0 c = none ∧
    (VirtualContext.veq a b = true ↔
      (a.context = b.context ∧ a.distance = b.distance)) := by
  refine ⟨?_, rfl, ?_⟩
  · intro v hv
    unfold VirtualContext.make at hv
    by_cases h : 0 < d
    · rw [if_pos h] at hv
      injection hv with h2
      rw [← h2]
      exact h
    · rw [if_neg h] at hv
      cases hv
  · unfold VirtualContext.veq
    rw [Bool.and_eq_true]
    simp

/-- Witness for C8 at a concrete input. -/
theorem virtualContext_spec_witness :
    VirtualContext.make 5 7 = some ⟨5, 7⟩ ∧
    0 < (⟨5, 7⟩ : VirtualContext).distance :=
  ⟨by decide, (virtualContext_spec 5 7 ⟨5, 7⟩ ⟨5, 7⟩).1 ⟨5, 7⟩ (by decide)⟩

/-- Modelled from the spec: the storage of the persistent-list primitive
(functional-list.h is not part of this tree).  To state the by-value
frame property of Union, the cons cells are made explicit: an arena is
the list of cells allocated so far (index = address), each cell holding
an element and the address of its tail (none = empty list).  Bump
allocation appends and cells are never mutated, matching the arena
contract of the spec. -/
structure Arena (T : Type) where
  cells : List (T × Option Nat)
  deriving DecidableEq

/-- A FunctionalSet at the storage level: `head` is the address of the
head cons cell of the backing FunctionalList (the data_ member), `hash_`
is the running hash. -/
structure FunctionalSetH (T : Type) where
  head : Option Nat
  hash_ : Nat
  deriving DecidableEq

/-- Bump-allocation discipline: every cell's tail address points
strictly earlier in the arena, because a cell is allocated after the
list it extends. -/
def Arena.wf (σ : Arena T) : Bool :=
  (List.range σ.cells.length).all (fun i =>
    match σ.cells.get? i with
    | some (_, some j) => decide (j < i)
    | _ => true)

/-- A head address is null or names an allocated cell. -/
def Arena.ok (σ : Arena T) (a : Option Nat) : Bool :=
  match a with
  | none => true
  | some i => decide (i < σ.cells.length)

/-- Reading the element sequence hanging off a head address, with fuel
bounding the chain length. -/
def readFuel (cells : List (T × Option Nat)) : Nat → Option Nat → List T
  | _, none => []
  | 0, some _ => []
  | fuel+1, some a =>
    match cells.get? a with
    | none => []
    | some cell => cell.1 :: readFuel cells fuel cell.2

/-- The element sequence denoted by a head address (the arena size is
always enough fuel in a well-formed arena). -/
def Arena.read (σ : Arena T) (a : Option Nat) : List T :=
  readFuel σ.cells σ.cells.length a

/-- FunctionalSet::Add at the storage level: scan the receiver's list in
the current arena; on a miss, PushFront allocates a fresh cons cell
pointing at the old head and the receiver's members are updated. -/
def AddH (eq : T → T → Bool) (hasher : T → Nat) (σ : Arena T)
    (s : FunctionalSetH T) (elem : T) : Arena T × FunctionalSetH T :=
  if (σ.read s.head).any (fun l => eq l elem) then (σ, s)
  else
    (⟨σ.cells ++ [(elem, s.head)]⟩,
     ⟨some σ.cells.length, s.hash_ ^^^ hasher elem⟩)

/-- FunctionalSet::Union at the storage level.  The argument is passed
BY VALUE: `other` is the callee's local copy of the two members, so the
procedure can only write the receiver's record, its local copy and the
arena — the caller's argument record is never written, which is why only
the new arena and the new receiver are returned.  TriviallyEquals is the
pointer equality of the two head addresses.  std::swap of the data_
members exchanges the head addresses of the receiver and the local copy
(the hash_ members are not swapped, as in the source); the swap is
inlined into the two branches. -/
def UnionH (eq : T → T → Bool) (hasher : T → Nat) (σ : Arena T)
    (s other : FunctionalSetH T) : Arena T × FunctionalSetH T :=
  if s.head = other.head then (σ, s)
  else if (σ.read s.head).length < (σ.read other.head).length
  then (σ.read s.head).foldl (fun acc e => AddH eq hasher acc.1 acc.2 e)
        (σ, ⟨other.head, s.hash_⟩)
  else (σ.read other.head).foldl (fun acc e => AddH eq hasher acc.1 acc.2 e)
        (σ, s)

theorem wf_iff {σ : Arena T} :
    σ.wf = true ↔ ∀ i v j, σ.cells.get? i = some (v, some j) → j < i := by
  unfold Arena.wf
  rw [List.all_eq_true]
  constructor
  · intro h i v j hij
    have hi : i < σ.cells.length := by
      have := List.get?_eq_some.mp hij
      exact this.1
    have := h i (List.mem_range.mpr hi)
    rw [hij] at this
    exact of_decide_eq_true this
  · intro h i _
    cases hc : σ.cells.get? i with
    | none => simp
    | some cell =>
      cases hn : cell.2 with
      | none =>
        obtain ⟨v, w⟩ := cell
        simp at hn
        subst hn
        simp
      | some j =>
        obtain ⟨v, w⟩ := cell
        simp at hn
        subst hn
        simp only
        exact decide_eq_true (h i v j hc)

theorem ok_some {σ : Arena T} {i : Nat} :
    σ.ok (some i) = true ↔ i < σ.cells.length := by
  unfold Arena.ok
  simp

theorem readFuel_none (cells : List (T × Option Nat)) (fuel : Nat) :
    readFuel cells fuel none = [] := by
  cases fuel <;> rfl

theorem readFuel_append {cells ext : List (T × Option Nat)}
    (hwf : Arena.wf ⟨cells⟩ = true) :
    ∀ (fuel : Nat) (a : Option Nat), Arena.ok ⟨cells⟩ a = true →
      readFuel (cells ++ ext) fuel a = readFuel cells fuel a := by
  intro fuel
  induction fuel with
  | zero =>
    intro a _
    cases a <;> rfl
  | succ f ih =>
    intro a ha
    cases a with
    | none => rfl
    | some i =>
      have hi : i < cells.length := ok_some.mp ha
      simp only [readFuel]
      rw [List.get?_append hi]
      cases hc : cells.get? i with
      | none => rfl
      | some cell =>
        obtain ⟨v, nxt⟩ := cell
        cases nxt with
        | none => simp [readFuel_none]
        | some j =>
          have hj : j < i := wf_iff.mp hwf i v j hc
          have hok : Arena.ok ⟨cells⟩ (some j) = true :=
            ok_some.mpr (Nat.lt_trans hj hi)
          simp only
          rw [ih (some j) hok]

theorem readFuel_stable {cells : List (T × Option Nat)}
    (hwf : Arena.wf ⟨cells⟩ = true) :
    ∀ i, i < cells.length → ∀ f g, i < f → i < g →
      readFuel cells f (some i) = readFuel cells g (some i) := by
  intro i
  induction i using Nat.strong_induction_on with
  | _ i ih =>
    intro hi f g hf hg
    match f, g with
    | f' + 1, g' + 1 =>
      simp only [readFuel]
      cases hc : cells.get? i with
      | none => rfl
      | some cell =>
        obtain ⟨v, nxt⟩ := cell
        cases nxt with
        | none => simp [readFuel_none]
        | some j =>
          have hj : j < i := wf_iff.mp hwf i v j hc
          simp only
          rw [ih j hj (Nat.lt_trans hj hi) f' g' (by omega) (by omega)]

theorem read_append (σ : Arena T) (ext : List (T × Option Nat))
    (a : Option Nat) (hwf : σ.wf = true) (ha : σ.ok a = true) :
    Arena.read ⟨σ.cells ++ ext⟩ a = σ.read a := by
  cases a with
  | none =>
    unfold Arena.read
    rw [readFuel_none, readFuel_none]
  | some i =>
    have hi : i < σ.cells.length := ok_some.mp ha
    unfold Arena.read
    have h1 : readFuel (σ.cells ++ ext) (σ.cells ++ ext).length (some i) =
        readFuel σ.cells (σ.cells ++ ext).length (some i) :=
      readFuel_append hwf _ (some i) ha
    rw [h1]
    exact readFuel_stable hwf i hi _ _
      (Nat.lt_of_lt_of_le hi (by simp))
      hi

theorem wf_push (σ : Arena T) (e : T) (h : Option Nat)
    (hwf : σ.wf = true) (hh : σ.ok h = true) :
    Arena.wf (⟨σ.cells ++ [(e, h)]⟩ : Arena T) = true := by
  rw [wf_iff]
  intro i v j hij
  by_cases hi : i < σ.cells.length
  · rw [List.get?_append hi] at hij
    exact wf_iff.mp hwf i v j hij
  · have hilen : i < (σ.cells ++ [(e, h)]).length := (List.get?_eq_some.mp hij).1
    have hieq : i = σ.cells.length := by
      simp at hilen
      omega
    subst hieq
    have : (σ.cells ++ [(e, h)]).get? σ.cells.length = some (e, h) := by
      rw [List.get?_append_right (Nat.le_refl _)]
      simp
    rw [this] at hij
    injection hij with h2
    have hv : h = some j := congrArg Prod.snd h2
    rw [hv] at hh
    exact ok_some.mp hh

theorem AddH_extends (eq : T → T → Bool) (hasher : T → Nat) (σ : Arena T)
    (s : FunctionalSetH T) (e : T)
    (hwf : σ.wf = true) (hs : σ.ok s.head = true) :
    (∃ ext, (AddH eq hasher σ s e).1.cells = σ.cells ++ ext) ∧
    (AddH eq hasher σ s e).1.wf = true ∧
    (AddH eq hasher σ s e).1.ok (AddH eq hasher σ s e).2.head = true := by
  unfold AddH
  by_cases hm : (σ.read s.head).any (fun l => eq l e) = true
  · rw [if_pos hm]
    exact ⟨⟨[], by simp⟩, hwf, hs⟩
  · rw [if_neg hm]
    refine ⟨⟨[(e, s.head)], rfl⟩, wf_push σ e s.head hwf hs, ?_⟩
    simp [Arena.ok]

theorem foldl_AddH_extends (eq : T → T → Bool) (hasher : T → Nat)
    (lst : List T) :
    ∀ (σ : Arena T) (s : FunctionalSetH T), σ.wf = true → σ.ok s.head = true →
      (∃ ext,
        (lst.foldl (fun acc e => AddH eq hasher acc.1 acc.2 e) (σ, s)).1.cells =
          σ.cells ++ ext) ∧
      (lst.foldl (fun acc e => AddH eq hasher acc.1 acc.2 e) (σ, s)).1.wf = true := by
  induction lst with
  | nil =>
    intro σ s hwf _
    exact ⟨⟨[], by simp⟩, hwf⟩
  | cons e l ih =>
    intro σ s hwf hs
    simp only [List.foldl_cons]
    obtain ⟨⟨ext1, hext1⟩, hwf1, hok1⟩ := AddH_extends eq hasher σ s e hwf hs
    obtain ⟨⟨ext2, hext2⟩, hwf2⟩ :=
      ih (AddH eq hasher σ s e).1 (AddH eq hasher σ s e).2 hwf1 hok1
    refine ⟨⟨ext1 ++ ext2, ?_⟩, hwf2⟩
    rw [hext2, hext1, List.append_assoc]

/-- C10: FunctionalSet::Union takes its argument by value, so a call
A.Union(B) can write only the receiver's record, the callee's local copy
and the arena; the caller's set B is observably unchanged — in the arena
returned by the call, the element sequence denoted by B's head (hence
B's membership and its size), and B's untouched record fields, are
exactly what they were before the call, even though the implementation
may swap its local copy's list pointer into the receiver. -/
theorem UnionH_frame (eq : T → T → Bool) (hasher : T → Nat) (σ : Arena T)
    (A B : FunctionalSetH T) (hwf : σ.wf = true)
    (hA : σ.ok A.head = true) (hB : σ.ok B.head = true) :
    (UnionH eq hasher σ A B).1.read B.head = σ.read B.head ∧
    ((UnionH eq hasher σ A B).1.read B.head).length =
      (σ.read B.head).length ∧
    (∀ x, ((UnionH eq hasher σ A B).1.read B.head).any (fun l => eq l x) =
      (σ.read B.head).any (fun l => eq l x)) := by
  have hmain : (UnionH eq hasher σ A B).1.read B.head = σ.read B.head := by
    unfold UnionH
    by_cases htriv : A.head = B.head
    · rw [if_pos htriv]
    · rw [if_neg htriv]
      by_cases hlen : (σ.read A.head).length < (σ.read B.head).length
      · rw [if_pos hlen]
        obtain ⟨⟨ext, hext⟩, _⟩ :=
          foldl_AddH_extends eq hasher (σ.read A.head) σ
            ⟨B.head, A.hash_⟩ hwf hB
        have : ((σ.read A.head).foldl
            (fun acc e => AddH eq hasher acc.1 acc.2 e)
            (σ, ⟨B.head, A.hash_⟩)).1 = ⟨σ.cells ++ ext⟩ := by
          cases hfold : ((σ.read A.head).foldl
            (fun acc e => AddH eq hasher acc.1 acc.2 e)
            (σ, ⟨B.head, A.hash_⟩)).1 with
          | mk cs =>
            rw [hfold] at hext
            simp at hext
            rw [hext]
        rw [this]
        exact read_append σ ext B.head hwf hB
      · rw [if_neg hlen]
        obtain ⟨⟨ext, hext⟩, _⟩ :=
          foldl_AddH_extends eq hasher (σ.read B.head) σ A hwf hA
        have : ((σ.read B.head).foldl
            (fun acc e => AddH eq hasher acc.1 acc.2 e) (σ, A)).1 =
            ⟨σ.cells ++ ext⟩ := by
          cases hfold : ((σ.read B.head).foldl
            (fun acc e => AddH eq hasher acc.1 acc.2 e) (σ, A)).1 with
          | mk cs =>
            rw [hfold] at hext
            simp at hext
            rw [hext]
        rw [this]
        exact read_append σ ext B.head hwf hB
  exact ⟨hmain, by rw [hmain], fun x => by rw [hmain]⟩

/-- Witness for C10 at a concrete input: one cell is allocated, B's list
is that cell, A is the empty set; the call grows the arena (the swap
branch fires) and B's denotation is untouched. -/
theorem UnionH_frame_witness :
    Arena.wf (⟨[(1, none)]⟩ : Arena Nat) = true ∧
    Arena.ok (⟨[(1, none)]⟩ : Arena Nat) (none : Option Nat) = true ∧
    Arena.ok (⟨[(1, none)]⟩ : Arena Nat) (some 0) = true ∧
    (UnionH natEq natHash ⟨[(1, none)]⟩ ⟨none, 0⟩ ⟨some 0, 1⟩).1.read
        (some 0) =
      Arena.read ⟨[(1, none)]⟩ (some 0) :=
  ⟨by decide, by decide, by decide,
   (UnionH_frame natEq natHash ⟨[(1, none)]⟩ ⟨none, 0⟩ ⟨some 0, 1⟩
     (by decide) (by decide) (by decide)).1⟩

end SerializerHints
